import Mathlib

/-!
# Verification of the k8s-event-collector core

A shallow embedding, in Lean 4, of the core data structures and operations of
the `k8s-event-collector` Go repository, together with theorems settling the
specification's claims about them.

Embedded components (translated from the Go source):

* the deduplicating ring event buffer (`RingEventBuffer` from
  `pkg/event-collector/ringbuffer.go`): `NewRingEventBuffer`, `Add`, `Do`
  (modelled by its visit order `visitList` and its action trace `DoTrace`),
  `Size`, `Capacity`;
* the event filter engine (`createFilterFuncFromConfigFilters` from
  `cmd/event-collector/main.go`): `acceptEvent`;
* the stash server (`pkg/stashserver/stashserver.go`): `purgeOldStashes`,
  `createFileStash`, `handlePostStashes`, `CreateBufferStash`,
  `handleGetStash`.

Conventions: Go strings are `String`; Go `types.UID` is `String`; Go maps
used as sets are `Finset`; Go maps from names to stashes are association
lists with (provably) distinct keys; Go functions that can panic (nil ring
dereference, out-of-range index) return `Option`, with `none` marking the
panic; external collaborators (the Kubernetes label lookup, file creation,
the `Stasher`) are parameters.
-/

/-! ## Events

The fields of `corev1.Event` that the embedded code reads: the involved
object reference, the event's namespace, its type and its UID. -/

/-- The part of `corev1.ObjectReference` read by the collector. -/
structure ObjectReference where
  apiVersion : String
  kind : String
  name : String
deriving DecidableEq, Repr

/-- The part of `corev1.Event` read by the collector: `Add`/`Size` use the
UID, the filter engine uses the involved object, the event namespace and the
event type. -/
structure Event where
  uid : String
  nspace : String
  eventType : String
  involvedObject : ObjectReference
deriving DecidableEq, Repr

/-! ## The ring event buffer

From `RingEventBuffer` (package `evcol`): a `container/ring` ring of
`bufferSize` slots plus a dedup map keyed by UID, guarded by one mutex.
The ring is a list of optional slots with the write cursor `cur`; Go's
`ring.New(n)` returns `nil` for `n ≤ 0`, which is modelled by an empty slot
list. The dedup map `s : map[types.UID]bool` is a `Finset String`.
-/

structure RingEventBuffer where
  slots : List (Option Event)
  cur : Nat
  dedup : Finset String
deriving DecidableEq

/-- `NewRingEventBuffer(bufferSize)`: a fresh ring of `bufferSize` empty
slots (no validation is performed; `ring.New(0)` yields a nil ring, i.e. an
empty slot list). -/
def NewRingEventBuffer (bufferSize : Nat) : RingEventBuffer :=
  { slots := List.replicate bufferSize none, cur := 0, dedup := ∅ }

namespace RingEventBuffer

/-- `Add`: if the UID is already in the dedup map, return unchanged;
otherwise read the current slot (`b.r.Value`; `none` result models the Go
nil-pointer panic when the ring is nil), remove the evicted event's UID from
the dedup map, install the new event, and advance the cursor. -/
def Add (b : RingEventBuffer) (e : Event) : Option RingEventBuffer :=
  if e.uid ∈ b.dedup then some b
  else
    match b.slots[b.cur]? with
    | none => none
    | some slot =>
      let s1 := match slot with
        | some old => b.dedup.erase old.uid
        | none => b.dedup
      some { slots := b.slots.set b.cur (some e),
             cur := (b.cur + 1) % b.slots.length,
             dedup := insert e.uid s1 }

/-- A sequence of `Add` calls (left to right); `none` if any one panics. -/
def addAll : List Event → RingEventBuffer → Option RingEventBuffer
  | [], b => some b
  | e :: es, b =>
    match b.Add e with
    | none => none
    | some b' => addAll es b'

/-- `Size()`: the number of entries in the dedup map. -/
def Size (b : RingEventBuffer) : Nat := b.dedup.card

/-- `Capacity()`: the length of the ring (`r.Len()`; 0 for a nil ring). -/
def Capacity (b : RingEventBuffer) : Nat := b.slots.length

/-- The sequence of events `Do` visits: `ring.Do` starts at the node the
buffer currently points to (`cur`) and goes once around the ring, skipping
nil values. -/
def visitList (b : RingEventBuffer) : List Event :=
  (b.slots.drop b.cur ++ b.slots.take b.cur).filterMap id

end RingEventBuffer

/-- The atomic actions `Do` performs, in order, on the buffer's mutex and
the caller-supplied visitor. -/
inductive DoAction where
  | lock
  | visit (e : Event)
  | unlock
deriving DecidableEq, Repr

/-- The action trace of `Do(f)` as written in the source: acquire the
exclusive lock, call `f` on every resident event in ring order, and release
the lock on return (`defer b.mx.Unlock()`), i.e. after the last visit. -/
def DoTrace (b : RingEventBuffer) : List DoAction :=
  DoAction.lock :: (b.visitList.map DoAction.visit) ++ [DoAction.unlock]

/-! ## The filter engine

From `createFilterFuncFromConfigFilters` in `cmd/event-collector/main.go`.
A `KubernetesResourceFilter` carries an optional apiVersion, an optional
resource kind and a label map (here an association list, as the map is only
read as a set of key=value requirements). A non-empty label map becomes a
label selector; label lookup against the live involved object is an
external collaborator, modelled as a function from kind, namespace and name
to the object's labels (`none` for a failed Get). -/

structure KubernetesResourceFilter where
  apiVersion : String
  resource : String
  labels : List (String × String)
deriving DecidableEq, Repr

/-- The label-lookup collaborator: kind, namespace and object name to the
live object's labels; `none` models a failed `Get` call. -/
def LabelLookup := String → String → String → Option (List (String × String))

/-- `labels.SelectorFromSet(set).Matches(lbls)`: every key=value requirement
in `set` is present and equal in `lbls`. -/
def selMatches (req : List (String × String)) (lbls : List (String × String)) : Bool :=
  req.all fun kv => lbls.lookup kv.1 == some kv.2

/-- The selector arm of the filter loop: `switch in.InvolvedObject.Kind`
over the three supported kinds, fetching the live object's labels
(`return (err == nil) && sel.Matches(...)`); any other kind is
`return false`. -/
def matchesLabelFilter (lookup : LabelLookup) (f : KubernetesResourceFilter)
    (e : Event) : Bool :=
  if e.involvedObject.kind = "Pod" ∨ e.involvedObject.kind = "Deployment" ∨
      e.involvedObject.kind = "PersistentVolumeClaim" then
    match lookup e.involvedObject.kind e.nspace e.involvedObject.name with
    | some lbls => selMatches f.labels lbls
    | none => false
  else false

/-- The `for i, f := range filters` loop body of the returned filter
function: mismatching apiVersion or kind `continue`s to the next rule; a
rule with a non-nil selector `return`s the label-match result directly; a
rule with no labels `return true`s; an exhausted loop returns false. -/
def acceptLoop (lookup : LabelLookup) (e : Event) :
    List KubernetesResourceFilter → Bool
  | [] => false
  | f :: rest =>
    if f.apiVersion ≠ "" ∧ f.apiVersion ≠ e.involvedObject.apiVersion then
      acceptLoop lookup e rest
    else if f.resource ≠ "" ∧ f.resource ≠ e.involvedObject.kind then
      acceptLoop lookup e rest
    else if f.labels ≠ [] then matchesLabelFilter lookup f e
    else true

/-- `createFilterFuncFromConfigFilters(filters, kubeClient)` applied to an
event: the empty filter list yields the constant-true function, otherwise
the rule loop runs. -/
def acceptEvent (filters : List KubernetesResourceFilter)
    (lookup : LabelLookup) (e : Event) : Bool :=
  if filters.isEmpty then true else acceptLoop lookup e filters

/-- One rule matching an event, in the words of the specification:
`(apiVersion empty OR equal) AND (kind empty OR equal) AND
(labelRequirements empty OR label-match)`, an unsupported kind or a failed
lookup counting as a non-match. -/
def ruleMatchesSpec (lookup : LabelLookup) (f : KubernetesResourceFilter)
    (e : Event) : Prop :=
  (f.apiVersion = "" ∨ f.apiVersion = e.involvedObject.apiVersion) ∧
  (f.resource = "" ∨ f.resource = e.involvedObject.kind) ∧
  (f.labels = [] ∨ matchesLabelFilter lookup f e = true)

instance (lookup : LabelLookup) (f : KubernetesResourceFilter) (e : Event) :
    Decidable (ruleMatchesSpec lookup f e) := by
  unfold ruleMatchesSpec; infer_instance

/-- `Accept` in the words of the specification: true iff the rule list is
empty or at least one rule matches. -/
def acceptSpec (filters : List KubernetesResourceFilter)
    (lookup : LabelLookup) (e : Event) : Prop :=
  filters = [] ∨ ∃ f ∈ filters, ruleMatchesSpec lookup f e

instance (filters : List KubernetesResourceFilter) (lookup : LabelLookup)
    (e : Event) : Decidable (acceptSpec filters lookup e) := by
  unfold acceptSpec; infer_instance

/-- The first rule whose apiVersion and kind constraints both pass, which is
the rule that actually decides the loop's outcome. -/
def firstApplicable (filters : List KubernetesResourceFilter) (e : Event) :
    Option KubernetesResourceFilter :=
  filters.find? fun f =>
    (f.apiVersion == "" || f.apiVersion == e.involvedObject.apiVersion) &&
    (f.resource == "" || f.resource == e.involvedObject.kind)

/-! ## Lexicographic order on stash names

`purgeOldStashes` sorts the stash names with `slices.Sort`, Go's ascending
lexicographic (byte-wise) string order. The names in play are ASCII, where
byte order and code-point order agree, so the order is modelled
character-wise on `String.data`; the sort is an insertion sort (any correct
ascending sort models `slices.Sort`). -/

/-- Lexicographic strict order on character lists. -/
def strLtB : List Char → List Char → Bool
  | [], [] => false
  | [], _ :: _ => true
  | _ :: _, [] => false
  | a :: as, b :: bs => if a < b then true else if b < a then false else strLtB as bs

/-- Strict lexicographic order on strings. -/
def nameLt (a b : String) : Bool := strLtB a.data b.data

/-- Reflexive lexicographic order on strings. -/
def nameLe (a b : String) : Bool := !(nameLt b a)

/-- Insert into a sorted list of names. -/
def insertName (x : String) : List String → List String
  | [] => [x]
  | y :: ys => if nameLe x y then x :: y :: ys else y :: insertName x ys

/-- Ascending sort of a list of names, modelling `slices.Sort`. -/
def sortNames : List String → List String
  | [] => []
  | x :: xs => insertName x (sortNames xs)

/-! ## The stash server

From `pkg/stashserver/stashserver.go`. A `Stash` has a status (a Go string
type with three named values) and a name. The server's `stashes` map is an
association list from names to stashes; list positions carry no meaning (the
Go map is unordered), keys are unique. External effects are parameters:
`createOk` for `os.Create` and `stasherOk` for `dm.stasher.Stash`. The
formatted timestamp `time.Now().Format(tsFormat)` is the parameter `now`. -/

/-- `StashStatus` is a Go string type; values other than the three named
constants are representable, as in Go. -/
abbrev StashStatus := String

def StashStarted : StashStatus := "Started"
def StashComplete : StashStatus := "Complete"
def StashFailed : StashStatus := "Failed"

/-- A stash record. -/
structure Stash where
  status : StashStatus
  name : String
deriving DecidableEq, Repr

/-- The server's stash index: name to stash, unique keys. -/
abbrev StashMap := List (String × Stash)

def stashPrefix : String := "event-log-"
def stashDirConst : String := "/tmp/"
def stashFileExtension : String := ".json"

/-- `getStashLocation`: `filepath.Join(dm.stashDir, stashName) + ".json"`. -/
def getStashLocation (stashName : String) : String :=
  stashDirConst ++ stashName ++ stashFileExtension

/-- `purgeOldStashes(maxStashes)`: if more than `maxStashes` stashes are
known, sort the names ascending and delete the oldest
`len - maxStashes` of them (each `delete` also removes the file, not
modelled). -/
def purgeOldStashes (maxStashes : Nat) (st : StashMap) : StashMap :=
  if st.length ≤ maxStashes then st
  else
    let stashNames := sortNames (st.map Prod.fst)
    let stashesToDelete := st.length - maxStashes
    let toDelete := stashNames.take stashesToDelete
    st.filter fun p => !(toDelete.contains p.1)

/-- The error results of `createFileStash`. -/
inductive StashError where
  | alreadyExists (name : String)
  | createFailed
  | writeFailed
deriving DecidableEq, Repr

/-- `createFileStash(stashName)`: under the index lock, fail if the name is
already known; otherwise insert the stash as `Started`, create the file and
write the buffer to it, the deferred update setting the final status to
`Complete` on success and `Failed` on either failure. The returned pair is
the Go error (`none` for nil) and the index after the call. -/
def createFileStash (createOk stasherOk : Bool) (stashName : String)
    (st : StashMap) : Option StashError × StashMap :=
  if (st.lookup stashName).isSome then
    (some (StashError.alreadyExists stashName), st)
  else if createOk = false then
    (some StashError.createFailed, st ++ [(stashName, ⟨StashFailed, stashName⟩)])
  else if stasherOk = false then
    (some StashError.writeFailed, st ++ [(stashName, ⟨StashFailed, stashName⟩)])
  else
    (none, st ++ [(stashName, ⟨StashComplete, stashName⟩)])

/-- The HTTP responses of the POST `/stashes` handler. -/
inductive PostResponse where
  | created (stashName : String)
  | internalServerError
deriving DecidableEq, Repr

/-- `handlePostStashes`: build the name from the current time, purge old
stashes down to `maxStashes - 1`, then create the stash; an error maps to
500, success to 201 with the name in the body. -/
def handlePostStashes (maxStashes : Nat) (createOk stasherOk : Bool)
    (now : String) (st : StashMap) : PostResponse × StashMap :=
  let stashName := stashPrefix ++ now
  let st1 := purgeOldStashes (maxStashes - 1) st
  match createFileStash createOk stasherOk stashName st1 with
  | (some _, st2) => (PostResponse.internalServerError, st2)
  | (none, st2) => (PostResponse.created stashName, st2)

/-- The server state the claims mention: the stash index and the configured
retention limit. -/
structure StashServerState where
  stashes : StashMap
  maxStashes : Nat
deriving DecidableEq, Repr

/-- `CreateBufferStash()` (the automatic action trigger): build the name
from the current time and call `createFileStash` directly — no purge, and
the returned error is discarded. -/
def CreateBufferStash (createOk stasherOk : Bool) (now : String)
    (srv : StashServerState) : StashServerState :=
  { srv with
    stashes := (createFileStash createOk stasherOk (stashPrefix ++ now) srv.stashes).2 }

/-- The HTTP responses of the GET `/stashes/<name>` handler. -/
inductive GetStashResponse where
  | notFound
  | methodNotAllowed
  | internalServerError
  | payload (filePath : String)
deriving DecidableEq, Repr

/-- `handleGetStash` on a GET request for `stashName`: unknown name or
`Failed` status is 404; `Started` is 405 (the distinct in-progress answer);
any status other than `Complete` is 500; `Complete` serves the persisted
file. -/
def handleGetStash (st : StashMap) (stashName : String) : GetStashResponse :=
  match st.lookup stashName with
  | none => GetStashResponse.notFound
  | some stash =>
    if stash.status = StashFailed then GetStashResponse.notFound
    else if stash.status = StashStarted then GetStashResponse.methodNotAllowed
    else if stash.status ≠ StashComplete then GetStashResponse.internalServerError
    else GetStashResponse.payload (getStashLocation stashName)

/-! ## Shared concrete fixtures -/

/-- A sample event with the given UID, used as concrete input. -/
def sampleEvent (u : String) : Event :=
  { uid := u, nspace := "ns", eventType := "Normal",
    involvedObject := { apiVersion := "v1", kind := "Pod", name := u } }

/-- A buffer of capacity 2 in which `sampleEvent "u1"` is resident. -/
def residentBuffer : RingEventBuffer :=
  { slots := [some (sampleEvent "u1"), none], cur := 1, dedup := {"u1"} }

/-- A buffer of capacity 1 holding one event, for trace statements. -/
def oneEventBuffer : RingEventBuffer :=
  { slots := [some (sampleEvent "u1")], cur := 0, dedup := {"u1"} }

/-! ## C7: Add is a true no-op on a resident identity -/

/-- C7: if an event's identity is already resident (its UID is in the dedup
index), `Add` returns the buffer unchanged: the size, the `Do` visit order
and the write cursor (recency structure) are all untouched. -/
theorem Add_resident_noop (b : RingEventBuffer) (e : Event)
    (h : e.uid ∈ b.dedup) :
    b.Add e = some b ∧
    (b.Add e).map RingEventBuffer.Size = some b.Size ∧
    (b.Add e).map RingEventBuffer.visitList = some b.visitList := by
  have h1 : b.Add e = some b := by
    unfold RingEventBuffer.Add
    rw [if_pos h]
  exact ⟨h1, by rw [h1]; rfl, by rw [h1]; rfl⟩

/-- Witness for C7 at a concrete resident buffer. -/
theorem Add_resident_noop_witness :
    (sampleEvent "u1").uid ∈ residentBuffer.dedup ∧
    (residentBuffer.Add (sampleEvent "u1") = some residentBuffer ∧
     (residentBuffer.Add (sampleEvent "u1")).map RingEventBuffer.Size
       = some residentBuffer.Size ∧
     (residentBuffer.Add (sampleEvent "u1")).map RingEventBuffer.visitList
       = some residentBuffer.visitList) :=
  ⟨by decide, Add_resident_noop residentBuffer (sampleEvent "u1") (by decide)⟩

/-! ## C8: capacity 0 at construction -/

/-- C8 counterexample: constructing a buffer with capacity 0 is NOT rejected
at construction time: `NewRingEventBuffer 0` returns normally (the
constructor has no failure path at all), producing a buffer whose ring is
Go's `ring.New(0) = nil` (no slots); the invalidity only surfaces later,
when `Add` dereferences the nil ring (the modelled panic `none`). -/
theorem newRingEventBuffer_zero_not_rejected :
    NewRingEventBuffer 0 = { slots := [], cur := 0, dedup := ∅ } ∧
    (NewRingEventBuffer 0).Add (sampleEvent "u1") = none := by
  exact ⟨rfl, by decide⟩

/-- C8 amended: `NewRingEventBuffer` performs no validation; with capacity 0
it returns a buffer with a nil ring, which reports capacity 0 and size 0 and
on which every `Add` panics. -/
theorem newRingEventBuffer_zero_no_validation :
    (NewRingEventBuffer 0).Capacity = 0 ∧ (NewRingEventBuffer 0).Size = 0 ∧
    ∀ e : Event, (NewRingEventBuffer 0).Add e = none := by
  refine ⟨rfl, rfl, fun e => ?_⟩
  unfold RingEventBuffer.Add NewRingEventBuffer
  simp

/-! ## C9: the lock is held across the visitor in Do -/

/-- The claim's property of a `Do` trace: every visitor invocation happens
after the lock release (each `unlock` action precedes, by position, every
`visit` action). -/
def visitsAfterUnlock (tr : List DoAction) : Prop :=
  ∀ (i j : Nat) (e : Event),
    tr[i]? = some DoAction.unlock → tr[j]? = some (DoAction.visit e) → i < j

/-- C9 counterexample: on a buffer holding one event the trace of `Do` is
`[lock, visit, unlock]`: the visitor runs before the lock is released, not
after. -/
theorem doTrace_visits_not_after_unlock :
    ¬ visitsAfterUnlock (DoTrace oneEventBuffer) := by
  intro h
  have h21 := h 2 1 (sampleEvent "u1") (by decide) (by decide)
  omega

/-- C9 amended: `Do` holds the buffer's exclusive lock across the
caller-supplied visitor: in its trace every visit happens after the lock is
acquired and before it is released, so there is no copy-then-release — a
slow visitor blocks writers for the whole traversal. -/
theorem doTrace_lock_held_around_visits (b : RingEventBuffer)
    (pre post : List DoAction) (e : Event)
    (h : DoTrace b = pre ++ DoAction.visit e :: post) :
    DoAction.lock ∈ pre ∧ DoAction.unlock ∈ post := by
  match pre, h with
  | [], h =>
    exact absurd (List.head_eq_of_cons_eq h.symm) (by simp [DoTrace])
  | a :: pre', h =>
    rw [DoTrace] at h
    have ha : DoAction.lock = a := List.head_eq_of_cons_eq h
    have htl : b.visitList.map DoAction.visit ++ [DoAction.unlock]
        = pre' ++ DoAction.visit e :: post := List.tail_eq_of_cons_eq h
    refine ⟨ha ▸ List.mem_cons_self a pre', ?_⟩
    rcases List.eq_nil_or_concat post with rfl | ⟨post', x, rfl⟩
    · have : b.visitList.map DoAction.visit ++ [DoAction.unlock]
          = (pre' ++ [DoAction.visit e]) ++ [DoAction.visit e].tail := by
        simpa using htl
      have := (List.append_inj' (by simpa using htl) (by simp)).2
      simp at this
    · have hx : b.visitList.map DoAction.visit ++ [DoAction.unlock]
          = (pre' ++ DoAction.visit e :: post') ++ [x] := by
        rw [htl, List.concat_eq_append]
        simp
      have := (List.append_inj' hx (by simp)).2
      simp only [List.cons.injEq, and_true] at this
      rw [List.concat_eq_append]
      simp [← this]

/-- Witness for C9's amended theorem at the one-event buffer. -/
theorem doTrace_lock_held_around_visits_witness :
    DoTrace oneEventBuffer
      = [DoAction.lock] ++ DoAction.visit (sampleEvent "u1") :: [DoAction.unlock] ∧
    (DoAction.lock ∈ [DoAction.lock] ∧ DoAction.unlock ∈ [DoAction.unlock]) :=
  ⟨by decide,
   doTrace_lock_held_around_visits oneEventBuffer [DoAction.lock] [DoAction.unlock]
     (sampleEvent "u1") (by decide)⟩

/-! ## C3: GetStash's answer per status -/

/-- C3: for every stash index and name, `handleGetStash` answers NotFound
when the name is unknown or its status is `Failed`; the distinct
"in progress" answer (405, which is neither NotFound nor a payload) when the
status is `Started`; the persisted payload when the status is `Complete`;
and the generic 500 failure for any other status value. -/
theorem handleGetStash_spec (st : StashMap) (name : String) :
    ((st.lookup name = none ∨
        ∃ s, st.lookup name = some s ∧ s.status = StashFailed) →
      handleGetStash st name = GetStashResponse.notFound) ∧
    (∀ s, st.lookup name = some s → s.status = StashStarted →
      handleGetStash st name = GetStashResponse.methodNotAllowed ∧
      GetStashResponse.methodNotAllowed ≠ GetStashResponse.notFound ∧
      ∀ p, GetStashResponse.methodNotAllowed ≠ GetStashResponse.payload p) ∧
    (∀ s, st.lookup name = some s → s.status = StashComplete →
      handleGetStash st name
        = GetStashResponse.payload (getStashLocation name)) ∧
    (∀ s, st.lookup name = some s → s.status ≠ StashFailed →
      s.status ≠ StashStarted → s.status ≠ StashComplete →
      handleGetStash st name = GetStashResponse.internalServerError) := by
  refine ⟨?_, ?_, ?_, ?_⟩
  · rintro (hnone | ⟨s, hs, hf⟩)
    · simp [handleGetStash, hnone]
    · simp [handleGetStash, hs, hf]
  · intro s hs hst
    refine ⟨?_, by simp, by simp⟩
    simp [handleGetStash, hs, hst, StashStarted, StashFailed]
  · intro s hs hc
    simp [handleGetStash, hs, hc, StashStarted, StashFailed, StashComplete]
  · intro s hs h1 h2 h3
    simp [handleGetStash, hs, h1, h2, h3]

/-- Witness for C3 at a concrete index exercising every branch. -/
theorem handleGetStash_spec_witness :
    handleGetStash [("a", ⟨StashStarted, "a"⟩)] "a"
        = GetStashResponse.methodNotAllowed ∧
    handleGetStash [("a", ⟨StashFailed, "a"⟩)] "a" = GetStashResponse.notFound ∧
    handleGetStash [("a", ⟨StashComplete, "a"⟩)] "a"
        = GetStashResponse.payload (getStashLocation "a") ∧
    handleGetStash [("a", ⟨"Exploded", "a"⟩)] "a"
        = GetStashResponse.internalServerError ∧
    handleGetStash [] "a" = GetStashResponse.notFound :=
  ⟨((handleGetStash_spec [("a", ⟨StashStarted, "a"⟩)] "a").2.1 ⟨StashStarted, "a"⟩
      (by decide) rfl).1,
   (handleGetStash_spec [("a", ⟨StashFailed, "a"⟩)] "a").1
     (Or.inr ⟨⟨StashFailed, "a"⟩, by decide, rfl⟩),
   (handleGetStash_spec [("a", ⟨StashComplete, "a"⟩)] "a").2.2.1
     ⟨StashComplete, "a"⟩ (by decide) rfl,
   (handleGetStash_spec [("a", ⟨"Exploded", "a"⟩)] "a").2.2.2
     ⟨"Exploded", "a"⟩ (by decide) (by decide) (by decide) (by decide),
   (handleGetStash_spec [] "a").1 (Or.inl rfl)⟩

/-! ## C4: duplicate name fails the trigger with no retry -/

/-- C4: `TriggerStash` (the POST handler) allocates the name from the
current time; if the allocated name is already present in the index at the
uniqueness check (which runs after the retention purge), `createFileStash`
fails with the "already exists" error, the index is not modified any
further, and the handler maps the single failure to a 500 response — no
retry and no renamed second attempt. -/
theorem triggerStash_duplicate (maxStashes : Nat) (createOk stasherOk : Bool)
    (now : String) (st : StashMap)
    (h : ((purgeOldStashes (maxStashes - 1) st).lookup (stashPrefix ++ now)).isSome) :
    createFileStash createOk stasherOk (stashPrefix ++ now)
        (purgeOldStashes (maxStashes - 1) st)
      = (some (StashError.alreadyExists (stashPrefix ++ now)),
         purgeOldStashes (maxStashes - 1) st) ∧
    handlePostStashes maxStashes createOk stasherOk now st
      = (PostResponse.internalServerError, purgeOldStashes (maxStashes - 1) st) := by
  have h1 : createFileStash createOk stasherOk (stashPrefix ++ now)
      (purgeOldStashes (maxStashes - 1) st)
      = (some (StashError.alreadyExists (stashPrefix ++ now)),
         purgeOldStashes (maxStashes - 1) st) := by
    unfold createFileStash
    rw [if_pos h]
  refine ⟨h1, ?_⟩
  simp only [handlePostStashes, h1]

/-- Witness for C4: a collision at `maxStashes = 2` with two known stashes. -/
theorem triggerStash_duplicate_witness :
    ((purgeOldStashes (2 - 1)
        [("event-log-A", ⟨StashComplete, "event-log-A"⟩),
         ("event-log-B", ⟨StashComplete, "event-log-B"⟩)]).lookup
      (stashPrefix ++ "B")).isSome ∧
    handlePostStashes 2 true true "B"
        [("event-log-A", ⟨StashComplete, "event-log-A"⟩),
         ("event-log-B", ⟨StashComplete, "event-log-B"⟩)]
      = (PostResponse.internalServerError,
         [("event-log-B", ⟨StashComplete, "event-log-B"⟩)]) := by
  refine ⟨by decide, ?_⟩
  have h := (triggerStash_duplicate 2 true true "B"
    [("event-log-A", ⟨StashComplete, "event-log-A"⟩),
     ("event-log-B", ⟨StashComplete, "event-log-B"⟩)] (by decide)).2
  rw [h]
  decide

/-! ## Order and sorting facts for stash names -/

theorem strLtB_irrefl : ∀ l : List Char, strLtB l l = false := by
  intro l
  induction l with
  | nil => rfl
  | cons a as ih =>
    simp [strLtB, ih]

theorem strLtB_asymm : ∀ l₁ l₂ : List Char,
    strLtB l₁ l₂ = true → strLtB l₂ l₁ = false := by
  intro l₁
  induction l₁ with
  | nil =>
    intro l₂ h
    cases l₂ <;> simp [strLtB] at h ⊢
  | cons a as ih =>
    intro l₂ h
    cases l₂ with
    | nil => simp [strLtB] at h
    | cons b bs =>
      by_cases hab : a < b
      · have hba : ¬ b < a := lt_asymm hab
        simp [strLtB, hab, hba, ne_of_gt hab]
      · by_cases hba : b < a
        · simp [strLtB, hab, hba] at h
        · simp [strLtB, hab, hba] at h ⊢
          exact ih bs h

theorem nameLt_irrefl (a : String) : nameLt a a = false :=
  strLtB_irrefl a.data

theorem nameLt_ne {a b : String} (h : nameLt a b = true) : a ≠ b := by
  intro hab
  rw [hab, nameLt_irrefl] at h
  exact Bool.false_ne_true h

theorem nameLe_of_nameLt {a b : String} (h : nameLt a b = true) :
    nameLe a b = true := by
  unfold nameLe nameLt at *
  rw [strLtB_asymm _ _ h]
  rfl

/-- Inserting a name below every element of a list prepends it. -/
theorem insertName_of_le_head (x : String) (l : List String)
    (h : ∀ y ∈ l, nameLt x y = true) : insertName x l = x :: l := by
  cases l with
  | nil => rfl
  | cons y ys =>
    unfold insertName
    rw [if_pos (nameLe_of_nameLt (h y (List.mem_cons_self y ys)))]

/-- Sorting a strictly ascending list leaves it unchanged. -/
theorem sortNames_eq_self (l : List String)
    (h : l.Pairwise (fun a b => nameLt a b = true)) : sortNames l = l := by
  induction l with
  | nil => rfl
  | cons x xs ih =>
    rw [List.pairwise_cons] at h
    unfold sortNames
    rw [ih h.2, insertName_of_le_head x xs h.1]

theorem insertName_perm (x : String) (l : List String) :
    (insertName x l).Perm (x :: l) := by
  induction l with
  | nil => exact List.Perm.refl _
  | cons y ys ih =>
    unfold insertName
    by_cases h : nameLe x y = true
    · rw [if_pos h]
    · rw [if_neg h]
      exact (ih.cons y).trans (List.Perm.swap x y ys)

theorem sortNames_perm (l : List String) : (sortNames l).Perm l := by
  induction l with
  | nil => exact List.Perm.refl _
  | cons x xs ih =>
    exact (insertName_perm x (sortNames xs)).trans (ih.cons x)

/-- Strictly ascending names are distinct. -/
theorem nodup_of_sorted (l : List String)
    (h : l.Pairwise (fun a b => nameLt a b = true)) : l.Nodup :=
  h.imp fun hab => nameLt_ne hab

/-! ## Facts about the stash index operations -/

theorem lookup_isSome_iff (l : StashMap) (a : String) :
    (l.lookup a).isSome = true ↔ a ∈ l.map Prod.fst := by
  induction l with
  | nil => simp [List.lookup]
  | cons p rest ih =>
    rcases p with ⟨k, v⟩
    by_cases hk : a = k
    · subst hk
      simp [List.lookup_cons]
    · rw [List.lookup_cons]
      have : (a == k) = false := beq_false_of_ne hk
      simp [this, hk, ih]

theorem lookup_eq_none_of_not_mem {l : StashMap} {a : String}
    (h : a ∉ l.map Prod.fst) : l.lookup a = none := by
  rcases hl : l.lookup a with _ | v
  · rfl
  · exact absurd ((lookup_isSome_iff l a).1 (by rw [hl]; rfl)) h

/-- `purgeOldStashes` is the identity when the index is small enough. -/
theorem purgeOldStashes_of_le {m : Nat} {st : StashMap}
    (h : st.length ≤ m) : purgeOldStashes m st = st := by
  unfold purgeOldStashes
  rw [if_pos h]

/-- Filtering on keys has the same length as filtering the key list. -/
theorem length_filter_on_fst (q : String → Bool) (st : StashMap) :
    (st.filter fun p => q p.1).length = ((st.map Prod.fst).filter q).length := by
  induction st with
  | nil => rfl
  | cons p rest ih =>
    by_cases hq : q p.1
    · simp [List.filter_cons, hq, ih]
    · simp [List.filter_cons, hq, ih]

/-- After a purge that actually deletes, exactly `m` stashes remain. -/
theorem purgeOldStashes_length {m : Nat} {st : StashMap}
    (hnd : (st.map Prod.fst).Nodup) (h : m < st.length) :
    (purgeOldStashes m st).length = m := by
  unfold purgeOldStashes
  rw [if_neg (Nat.not_le_of_lt h)]
  set keys := st.map Prod.fst with hkeys
  set S := sortNames keys with hS
  set k := st.length - m with hk
  set q : String → Bool := fun n => !((S.take k).contains n) with hq
  have hperm : S.Perm keys := sortNames_perm keys
  have hSnd : S.Nodup := (hperm.symm).nodup hnd
  have hfilter : S.filter q = S.drop k := by
    conv_lhs => rw [← List.take_append_drop k S]
    rw [List.filter_append]
    have h1 : (S.take k).filter q = [] := by
      rw [List.filter_eq_nil_iff]
      intro a ha
      simp only [hq, Bool.not_eq_true', Bool.not_eq_false, List.contains,
        List.elem_iff]
      exact ha
    have h2 : (S.drop k).filter q = S.drop k := by
      rw [List.filter_eq_self]
      intro a ha
      have : a ∉ S.take k := fun hmem =>
        (List.disjoint_take_drop hSnd le_rfl) hmem ha
      simp only [hq, Bool.not_eq_true', List.contains]
      exact Bool.eq_false_iff.mpr fun hc => this (List.elem_iff.mp hc)
    rw [h1, h2, List.nil_append]
  have hlenkeys : S.length = st.length := by
    rw [hperm.length_eq, hkeys, List.length_map]
  calc (st.filter fun p => q p.1).length
      = (keys.filter q).length := length_filter_on_fst q st
    _ = (S.filter q).length := ((hperm.filter q).length_eq).symm
    _ = (S.drop k).length := by rw [hfilter]
    _ = S.length - k := List.length_drop k S
    _ = m := by omega

/-! ## C10: the purge precedes the uniqueness check -/

/-- C10: the POST handler runs the retention purge before the duplicate-name
check, so a trigger call that fails with "already exists" has nevertheless
already deleted the oldest stashes down to `maxStashes - 1`: the index after
the failed call is the purged index, strictly smaller than before the call
when the limit was exceeded. -/
theorem handlePost_purges_despite_error (maxStashes : Nat)
    (createOk stasherOk : Bool) (now : String) (st : StashMap)
    (hnd : (st.map Prod.fst).Nodup)
    (hdup : ((purgeOldStashes (maxStashes - 1) st).lookup
      (stashPrefix ++ now)).isSome)
    (hover : maxStashes - 1 < st.length) :
    (handlePostStashes maxStashes createOk stasherOk now st).1
        = PostResponse.internalServerError ∧
    (handlePostStashes maxStashes createOk stasherOk now st).2
        = purgeOldStashes (maxStashes - 1) st ∧
    (handlePostStashes maxStashes createOk stasherOk now st).2.length
        = maxStashes - 1 ∧
    (handlePostStashes maxStashes createOk stasherOk now st).2.length
        < st.length := by
  have h1 : createFileStash createOk stasherOk (stashPrefix ++ now)
      (purgeOldStashes (maxStashes - 1) st)
      = (some (StashError.alreadyExists (stashPrefix ++ now)),
         purgeOldStashes (maxStashes - 1) st) := by
    unfold createFileStash
    rw [if_pos hdup]
  have h2 : handlePostStashes maxStashes createOk stasherOk now st
      = (PostResponse.internalServerError,
         purgeOldStashes (maxStashes - 1) st) := by
    simp only [handlePostStashes, h1]
  have h3 : (purgeOldStashes (maxStashes - 1) st).length = maxStashes - 1 :=
    purgeOldStashes_length hnd hover
  refine ⟨by rw [h2], by rw [h2], by rw [h2]; exact h3, ?_⟩
  rw [h2]
  simpa [h3] using hover

/-- Witness for C10: three known stashes, limit 2; the failing call still
shrinks the index to one entry. -/
theorem handlePost_purges_despite_error_witness :
    ([("event-log-A", (⟨StashComplete, "event-log-A"⟩ : Stash)),
      ("event-log-B", ⟨StashComplete, "event-log-B"⟩),
      ("event-log-C", ⟨StashComplete, "event-log-C"⟩)].map Prod.fst).Nodup ∧
    (handlePostStashes 2 true true "C"
        [("event-log-A", ⟨StashComplete, "event-log-A"⟩),
         ("event-log-B", ⟨StashComplete, "event-log-B"⟩),
         ("event-log-C", ⟨StashComplete, "event-log-C"⟩)]).1
      = PostResponse.internalServerError ∧
    (handlePostStashes 2 true true "C"
        [("event-log-A", ⟨StashComplete, "event-log-A"⟩),
         ("event-log-B", ⟨StashComplete, "event-log-B"⟩),
         ("event-log-C", ⟨StashComplete, "event-log-C"⟩)]).2.length = 1 := by
  have h := handlePost_purges_despite_error 2 true true "C"
    [("event-log-A", ⟨StashComplete, "event-log-A"⟩),
     ("event-log-B", ⟨StashComplete, "event-log-B"⟩),
     ("event-log-C", ⟨StashComplete, "event-log-C"⟩)]
    (by decide) (by decide) (by decide)
  exact ⟨by decide, h.1, h.2.2.1⟩

/-! ## C2: retention on stash creation -/

/-- C2 counterexample: the automatic action trigger (`CreateBufferStash`)
does not purge. With `maxStashes = 1` and one known stash, the claim demands
the index be purged down to 0 before the new stash is inserted, leaving at
most 1; instead both stashes remain. -/
theorem createBufferStash_skips_retention :
    (CreateBufferStash true true "20250101T000000"
        { stashes := [("event-log-A", ⟨StashComplete, "event-log-A"⟩)],
          maxStashes := 1 }).stashes.length = 2 ∧
    ¬ ((CreateBufferStash true true "20250101T000000"
        { stashes := [("event-log-A", ⟨StashComplete, "event-log-A"⟩)],
          maxStashes := 1 }).stashes.length ≤ 1) := by
  constructor <;> decide

/-- The HTTP trigger loop: POST the stashes named by the given timestamps in
order, collecting the responses (storage and stasher succeed throughout). -/
def postSeq (maxStashes : Nat) : List String → StashMap →
    List PostResponse × StashMap
  | [], st => ([], st)
  | t :: rest, st =>
    ((handlePostStashes maxStashes true true t st).1
        :: (postSeq maxStashes rest
              (handlePostStashes maxStashes true true t st).2).1,
     (postSeq maxStashes rest
        (handlePostStashes maxStashes true true t st).2).2)

/-- The last `n` entries of a list. -/
def lastN (l : List String) (n : Nat) : List String := l.drop (l.length - n)

theorem lastN_cons (x : String) (l : List String) {n : Nat}
    (h : n ≤ l.length) : lastN (x :: l) n = lastN l n := by
  unfold lastN
  have hlen : (x :: l).length - n = (l.length - n) + 1 := by
    simp only [List.length_cons]
    omega
  rw [hlen, List.drop_succ_cons]

/-- A purge of a one-over-limit, name-sorted index drops its oldest entry. -/
theorem purgeOldStashes_pop {m : Nat} (p : String × Stash) (rest : StashMap)
    (hlen : (p :: rest).length = m + 1)
    (hsort : ((p :: rest).map Prod.fst).Pairwise
      (fun a b => nameLt a b = true)) :
    purgeOldStashes m (p :: rest) = rest := by
  unfold purgeOldStashes
  rw [if_neg (by omega)]
  show List.filter
      (fun q => !((List.take ((p :: rest).length - m)
        (sortNames ((p :: rest).map Prod.fst))).contains q.1)) (p :: rest)
    = rest
  have hkeys : (p :: rest).map Prod.fst = p.1 :: rest.map Prod.fst := rfl
  have hdel : (p :: rest).length - m = 1 := by omega
  rw [sortNames_eq_self _ hsort, hdel, hkeys]
  have htake : List.take 1 (p.1 :: rest.map Prod.fst) = [p.1] := rfl
  rw [htake]
  rw [hkeys, List.pairwise_cons] at hsort
  have hfilter : (List.filter (fun q => !([p.1].contains q.1)) rest) = rest := by
    rw [List.filter_eq_self]
    intro q hq
    have hne : p.1 ≠ q.1 :=
      nameLt_ne (hsort.1 q.1 (List.mem_map_of_mem Prod.fst hq))
    simp [List.contains, Ne.symm hne]
  rw [List.filter_cons]
  simp only [List.contains, List.elem_cons_self]
  simpa using hfilter

/-- Creating a fresh-named stash succeeds and appends it as `Complete`. -/
theorem createFileStash_success (name : String) (st : StashMap)
    (h : name ∉ st.map Prod.fst) :
    createFileStash true true name st
      = (none, st ++ [(name, ⟨StashComplete, name⟩)]) := by
  unfold createFileStash
  rw [lookup_eq_none_of_not_mem h]
  simp

/-- The retention invariant of the HTTP trigger loop: starting from a
name-sorted index of at most `N` stashes whose names all precede the posted
timestamps, every POST succeeds and the index ends holding exactly the last
`N` of the combined names. -/
theorem postSeq_spec (N : Nat) (hN : 1 ≤ N) :
    ∀ (todo : List String) (st : StashMap),
      (st.map Prod.fst).Pairwise (fun a b => nameLt a b = true) →
      st.length ≤ N →
      (∀ k ∈ st.map Prod.fst, ∀ t ∈ todo,
        nameLt k (stashPrefix ++ t) = true) →
      todo.Pairwise
        (fun a b => nameLt (stashPrefix ++ a) (stashPrefix ++ b) = true) →
      (postSeq N todo st).1
          = todo.map (fun t => PostResponse.created (stashPrefix ++ t)) ∧
      ((postSeq N todo st).2).map Prod.fst
          = lastN ((st.map Prod.fst)
              ++ todo.map (fun t => stashPrefix ++ t)) N := by
  intro todo
  induction todo with
  | nil =>
    intro st hsort hlen hcross htodo
    refine ⟨rfl, ?_⟩
    unfold postSeq lastN
    simp only [List.map_nil, List.append_nil]
    have h0 : (st.map Prod.fst).length - N = 0 := by
      rw [List.length_map]
      omega
    rw [h0, List.drop_zero]
  | cons t rest ih =>
    intro st hsort hlen hcross htodo
    rw [List.pairwise_cons] at htodo
    -- the purge leaves a suffix `st1` of the index with at most N-1 entries
    obtain ⟨st1, hp, hcase, hlen1, hsub, hsort1⟩ :
        ∃ st1 : StashMap, purgeOldStashes (N - 1) st = st1 ∧
          (st1 = st ∨ ∃ p, st = p :: st1 ∧ st1.length = N - 1) ∧
          st1.length ≤ N - 1 ∧
          (∀ k ∈ st1.map Prod.fst, k ∈ st.map Prod.fst) ∧
          (st1.map Prod.fst).Pairwise (fun a b => nameLt a b = true) := by
      by_cases hc : st.length ≤ N - 1
      · exact ⟨st, purgeOldStashes_of_le hc, Or.inl rfl, hc,
          fun k hk => hk, hsort⟩
      · have hlenN : st.length = N := by omega
        cases st with
        | nil =>
          simp only [List.length_nil] at hlenN
          omega
        | cons p st' =>
          have hlen' : st'.length = N - 1 := by
            simp only [List.length_cons] at hlenN
            omega
          refine ⟨st', purgeOldStashes_pop p st' (by omega) hsort,
            Or.inr ⟨p, rfl, hlen'⟩, le_of_eq hlen', ?_, ?_⟩
          · intro k hk
            exact List.mem_cons_of_mem _ hk
          · exact (List.pairwise_cons.1 hsort).2
    -- the fresh name is new, so the creation succeeds
    have hnotmem : (stashPrefix ++ t) ∉ st1.map Prod.fst := by
      intro hmem
      have := hcross (stashPrefix ++ t) (hsub _ hmem) t
        (List.mem_cons_self t rest)
      rw [nameLt_irrefl] at this
      exact Bool.false_ne_true this
    have hcreate := createFileStash_success (stashPrefix ++ t) st1 hnotmem
    have hpost : handlePostStashes N true true t st
        = (PostResponse.created (stashPrefix ++ t),
           st1 ++ [(stashPrefix ++ t,
             ⟨StashComplete, stashPrefix ++ t⟩)]) := by
      simp only [handlePostStashes, hp, hcreate]
    have hstep1 : (postSeq N (t :: rest) st).1
        = PostResponse.created (stashPrefix ++ t)
            :: (postSeq N rest (st1 ++ [(stashPrefix ++ t,
                  ⟨StashComplete, stashPrefix ++ t⟩)])).1 := by
      simp only [postSeq, hpost]
    have hstep2 : (postSeq N (t :: rest) st).2
        = (postSeq N rest (st1 ++ [(stashPrefix ++ t,
              ⟨StashComplete, stashPrefix ++ t⟩)])).2 := by
      simp only [postSeq, hpost]
    -- the hypotheses of the induction step for the grown index
    have hkeys2 : (st1 ++ [(stashPrefix ++ t,
        (⟨StashComplete, stashPrefix ++ t⟩ : Stash))]).map Prod.fst
        = st1.map Prod.fst ++ [stashPrefix ++ t] := by
      rw [List.map_append]
      rfl
    have hsort2 : ((st1 ++ [(stashPrefix ++ t,
        (⟨StashComplete, stashPrefix ++ t⟩ : Stash))]).map Prod.fst).Pairwise
        (fun a b => nameLt a b = true) := by
      rw [hkeys2, List.pairwise_append]
      refine ⟨hsort1, List.pairwise_singleton _ _, ?_⟩
      intro k hk b hb
      rw [List.mem_singleton] at hb
      subst hb
      exact hcross k (hsub _ hk) t (List.mem_cons_self t rest)
    have hlen2 : (st1 ++ [(stashPrefix ++ t,
        (⟨StashComplete, stashPrefix ++ t⟩ : Stash))]).length ≤ N := by
      rw [List.length_append, List.length_singleton]
      omega
    have hcross2 : ∀ k ∈ (st1 ++ [(stashPrefix ++ t,
        (⟨StashComplete, stashPrefix ++ t⟩ : Stash))]).map Prod.fst,
        ∀ u ∈ rest, nameLt k (stashPrefix ++ u) = true := by
      rw [hkeys2]
      intro k hk u hu
      rcases List.mem_append.1 hk with hk1 | hk1
      · exact hcross k (hsub _ hk1) u (List.mem_cons_of_mem t hu)
      · rw [List.mem_singleton] at hk1
        subst hk1
        exact htodo.1 u hu
    obtain ⟨ihr, ihk⟩ := ih (st1 ++ [(stashPrefix ++ t,
      ⟨StashComplete, stashPrefix ++ t⟩)]) hsort2 hlen2 hcross2 htodo.2
    constructor
    · rw [hstep1, ihr, List.map_cons]
    · rw [hstep2, ihk, hkeys2, List.map_cons, List.append_assoc,
        List.singleton_append]
      rcases hcase with rfl | ⟨p, rfl, hlen1'⟩
      · rfl
      · have hkeysp : ((p :: st1).map Prod.fst) = p.1 :: st1.map Prod.fst := rfl
        rw [hkeysp, List.cons_append]
        rw [lastN_cons]
        rw [List.length_append, List.length_map, List.length_cons]
        omega

/-- C2 amended: only the HTTP trigger path enforces retention (the
automatic action trigger inserts without purging). For the HTTP path, with
`maxStashes = N ≥ 1`, posting `N + 1` stashes at strictly increasing
timestamps from an empty index succeeds every time and leaves exactly the
`N` newest stashes: the discarded one is the chronologically oldest. -/
theorem http_retention_after_overflow (N : Nat) (hN : 1 ≤ N)
    (times : List String) (hlen : times.length = N + 1)
    (hinc : times.Pairwise
      (fun a b => nameLt (stashPrefix ++ a) (stashPrefix ++ b) = true)) :
    (postSeq N times []).1
        = times.map (fun t => PostResponse.created (stashPrefix ++ t)) ∧
    ((postSeq N times []).2).map Prod.fst
        = (times.map (fun t => stashPrefix ++ t)).drop 1 ∧
    ((postSeq N times []).2).length = N := by
  obtain ⟨h1, h2⟩ := postSeq_spec N hN times []
    (by simp) (by simp) (by simp) hinc
  have h2' : ((postSeq N times []).2).map Prod.fst
      = (times.map (fun t => stashPrefix ++ t)).drop 1 := by
    rw [h2]
    unfold lastN
    simp only [List.map_nil, List.nil_append]
    have hone : ((times.map (fun t => stashPrefix ++ t)).length - N) = 1 := by
      rw [List.length_map, hlen]
      omega
    rw [hone]
  refine ⟨h1, h2', ?_⟩
  have hml : ((postSeq N times []).2).length
      = (((postSeq N times []).2).map Prod.fst).length :=
    (List.length_map _ _).symm
  rw [hml, h2', List.length_drop, List.length_map, hlen]
  omega

/-- Witness for C2's amended theorem: `maxStashes = 2`, three triggers; the
two newest stashes remain and the oldest is gone. -/
theorem http_retention_after_overflow_witness :
    (["A", "B", "C"] : List String).Pairwise
      (fun a b => nameLt (stashPrefix ++ a) (stashPrefix ++ b) = true) ∧
    ((postSeq 2 ["A", "B", "C"] []).1
        = ["A", "B", "C"].map
            (fun t => PostResponse.created (stashPrefix ++ t)) ∧
     ((postSeq 2 ["A", "B", "C"] []).2).map Prod.fst
        = (["A", "B", "C"].map (fun t => stashPrefix ++ t)).drop 1 ∧
     ((postSeq 2 ["A", "B", "C"] []).2).length = 2) ∧
    ((postSeq 2 ["A", "B", "C"] []).2).map Prod.fst
        = ["event-log-B", "event-log-C"] :=
  ⟨by decide,
   http_retention_after_overflow 2 (by decide) ["A", "B", "C"] rfl (by decide),
   by decide⟩

/-! ## C1: the filter loop stops at the first label-bearing applicable rule

The repository's README documents the rule set as a disjunction ("if an
event matches any of the filters it will be collected"), which is what the
claim states (`acceptSpec`). The code instead `return`s from inside the loop
as soon as a rule passes the apiVersion and kind checks and carries label
requirements, so a failed label match (or an unsupported kind, or a failed
lookup) on that rule rejects the event without considering later rules. -/

/-- Two rules in the README's style: a label-requirement rule followed by an
apiVersion rule. -/
def readmeFilters : List KubernetesResourceFilter :=
  [{ apiVersion := "", resource := "",
     labels := [("app", "couchbase"), ("couchbase_server", "true")] },
   { apiVersion := "apps/v1", resource := "", labels := [] }]

/-- The involved Deployment's live labels. -/
def readmeLookup : LabelLookup :=
  fun _ _ _ => some [("app", "couchbase-operator")]

/-- An event on a Deployment that the second rule matches. -/
def readmeEvent : Event :=
  { uid := "u1", nspace := "default", eventType := "Warning",
    involvedObject :=
      { apiVersion := "apps/v1", kind := "Deployment",
        name := "couchbase-operator-abc" } }

/-- A label rule followed by an apiVersion rule, against an event whose
involved object kind is unsupported for label lookup. -/
def svcFilters : List KubernetesResourceFilter :=
  [{ apiVersion := "", resource := "", labels := [("app", "x")] },
   { apiVersion := "v1", resource := "", labels := [] }]

def svcLookup : LabelLookup := fun _ _ _ => none

def svcEvent : Event :=
  { uid := "u2", nspace := "default", eventType := "Normal",
    involvedObject := { apiVersion := "v1", kind := "Service", name := "s1" } }

/-- C1 (code bug): in both scenarios a later rule matches the event in the
claim's (and the README's) disjunctive semantics, yet `Accept` returns
false, because the first rule whose apiVersion and kind pass carries label
requirements and its failed label match (first case) or unsupported
involved-object kind (second case) terminates the scan instead of falling
through to the remaining rules. -/
theorem acceptEvent_stops_at_label_rule :
    (acceptEvent readmeFilters readmeLookup readmeEvent = false ∧
      acceptSpec readmeFilters readmeLookup readmeEvent) ∧
    (acceptEvent svcFilters svcLookup svcEvent = false ∧
      acceptSpec svcFilters svcLookup svcEvent) :=
  ⟨⟨by decide, by decide⟩, ⟨by decide, by decide⟩⟩

/-! ## The reachable-state invariant of the ring buffer

`seen` is the set of UIDs offered to `Add` so far. Reachable buffers fill
slots `0..k-1` in order while `k < n` (the cursor sits on the first empty
slot) and keep every slot full once `k` reaches the capacity; the dedup
index always holds exactly the UIDs of the filled slots. -/

structure BufInv (n : Nat) (seen : Finset String) (b : RingEventBuffer) : Prop where
  slots_len : b.slots.length = n
  cur_lt : b.cur < n
  card_eq : b.dedup.card = min seen.card n
  dedup_sub : b.dedup ⊆ seen
  dedup_eq : seen.card < n → b.dedup = seen
  cur_eq : seen.card < n → b.cur = seen.card
  tail_none : seen.card < n → ∀ i, b.cur ≤ i → i < n → b.slots[i]? = some none
  head_some : seen.card < n → ∀ i, i < b.cur → ∃ ev, b.slots[i]? = some (some ev)
  full_some : n ≤ seen.card → ∀ i, i < n → ∃ ev, b.slots[i]? = some (some ev)
  slot_uid_mem : ∀ (i : Nat) (ev : Event),
    b.slots[i]? = some (some ev) → ev.uid ∈ b.dedup
  slot_uid_distinct : ∀ (i j : Nat) (ev ev' : Event), i ≠ j →
    b.slots[i]? = some (some ev) → b.slots[j]? = some (some ev') →
    ev.uid ≠ ev'.uid

/-- A fresh buffer of positive capacity satisfies the invariant with no UID
seen. -/
theorem bufInv_new (n : Nat) (hn : 0 < n) :
    BufInv n ∅ (NewRingEventBuffer n) := by
  have hrep : ∀ i : Nat, i < n →
      (NewRingEventBuffer n).slots[i]? = some none := by
    intro i hi
    show (List.replicate n (none : Option Event))[i]? = some none
    rw [List.getElem?_replicate, if_pos hi]
  refine ⟨?_, ?_, ?_, ?_, ?_, ?_, ?_, ?_, ?_, ?_, ?_⟩
  · exact List.length_replicate n none
  · exact hn
  · simp [NewRingEventBuffer]
  · exact Finset.Subset.refl _
  · intro _; rfl
  · intro _; rfl
  · intro _ i _ hi
    exact hrep i hi
  · intro _ i hi
    exact absurd hi (Nat.not_lt_zero i)
  · intro h
    rw [Finset.card_empty] at h
    omega
  · intro i ev hslot
    rcases Nat.lt_or_ge i n with hi | hi
    · rw [hrep i hi] at hslot
      exact absurd (Option.some.inj hslot) (by simp)
    · have : (NewRingEventBuffer n).slots[i]? = none :=
        List.getElem?_eq_none (by simpa [NewRingEventBuffer] using hi)
      rw [this] at hslot
      exact absurd hslot (by simp)
  · intro i j ev ev' _ hslot _
    rcases Nat.lt_or_ge i n with hi | hi
    · rw [hrep i hi] at hslot
      exact absurd (Option.some.inj hslot) (by simp)
    · have : (NewRingEventBuffer n).slots[i]? = none :=
        List.getElem?_eq_none (by simpa [NewRingEventBuffer] using hi)
      rw [this] at hslot
      exact absurd hslot (by simp)

/-- One `Add` step preserves the invariant (and never panics) for positive
capacity. -/
theorem Add_inv {n : Nat} (hn : 0 < n) {seen : Finset String}
    {b : RingEventBuffer} (inv : BufInv n seen b) (e : Event) :
    ∃ b', b.Add e = some b' ∧ BufInv n (insert e.uid seen) b' := by
  by_cases hmem : e.uid ∈ b.dedup
  · refine ⟨b, ?_, ?_⟩
    · unfold RingEventBuffer.Add
      rw [if_pos hmem]
    · rw [Finset.insert_eq_self.mpr (inv.dedup_sub hmem)]
      exact inv
  · have hlen := inv.slots_len
    have hcurlt := inv.cur_lt
    have hread_ne : ∀ i, i ≠ b.cur →
        (b.slots.set b.cur (some e))[i]? = b.slots[i]? := by
      intro i hi
      exact List.getElem?_set_ne (Ne.symm hi)
    rcases Nat.lt_or_ge seen.card n with hlt | hge
    · -- phase 1: the cursor slot is empty, the new event fills it
      have hcur := inv.cur_eq hlt
      have hslot : b.slots[b.cur]? = some none :=
        inv.tail_none hlt b.cur le_rfl hcurlt
      have hdedup := inv.dedup_eq hlt
      have hmem' : e.uid ∉ seen := by
        rw [← hdedup]
        exact hmem
      have hcard : (insert e.uid seen).card = seen.card + 1 :=
        Finset.card_insert_of_not_mem hmem'
      have hread_eq : (b.slots.set b.cur (some e))[b.cur]? = some (some e) := by
        rw [List.getElem?_set_self', hslot]
        rfl
      have hadd : b.Add e = some
          { slots := b.slots.set b.cur (some e),
            cur := (b.cur + 1) % b.slots.length,
            dedup := insert e.uid b.dedup } := by
        unfold RingEventBuffer.Add
        rw [if_neg hmem, hslot]
      refine ⟨_, hadd, ?_, ?_, ?_, ?_, ?_, ?_, ?_, ?_, ?_, ?_, ?_⟩
      · rw [List.length_set]
        exact hlen
      · show (b.cur + 1) % b.slots.length < n
        rw [hlen]
        exact Nat.mod_lt _ hn
      · show (insert e.uid b.dedup).card = min (insert e.uid seen).card n
        rw [hdedup, hcard, Nat.min_eq_left (by omega)]
      · show insert e.uid b.dedup ⊆ insert e.uid seen
        rw [hdedup]
      · intro _
        show insert e.uid b.dedup = insert e.uid seen
        rw [hdedup]
      · intro h
        show (b.cur + 1) % b.slots.length = (insert e.uid seen).card
        rw [hcard] at h ⊢
        rw [hlen, Nat.mod_eq_of_lt (by omega), hcur]
      · intro h i hle hi
        dsimp only at hle ⊢
        rw [hcard] at h
        have hcur' : (b.cur + 1) % b.slots.length = b.cur + 1 := by
          rw [hlen]
          exact Nat.mod_eq_of_lt (by omega)
        rw [hcur'] at hle
        rw [hread_ne i (by omega)]
        exact inv.tail_none hlt i (by omega) hi
      · intro h i hi
        dsimp only at hi ⊢
        have hcur' : (b.cur + 1) % b.slots.length = b.cur + 1 := by
          rw [hlen]
          rw [hcard] at h
          exact Nat.mod_eq_of_lt (by omega)
        rw [hcur'] at hi
        rcases Nat.lt_or_ge i b.cur with hic | hic
        · obtain ⟨ev, hev⟩ := inv.head_some hlt i hic
          exact ⟨ev, by rw [hread_ne i (by omega)]; exact hev⟩
        · have hieq : i = b.cur := by omega
          exact ⟨e, by rw [hieq]; exact hread_eq⟩
      · intro h i hi
        dsimp only at hi ⊢
        rw [hcard] at h
        have hneq : seen.card + 1 = n := by omega
        have hcurn : b.cur = n - 1 := by omega
        rcases Nat.lt_or_ge i b.cur with hic | hic
        · obtain ⟨ev, hev⟩ := inv.head_some hlt i hic
          exact ⟨ev, by rw [hread_ne i (by omega)]; exact hev⟩
        · have hieq : i = b.cur := by omega
          exact ⟨e, by rw [hieq]; exact hread_eq⟩
      · intro i ev hev
        by_cases hic : i = b.cur
        · rw [hic, hread_eq] at hev
          have : e = ev := by
            have := Option.some.inj hev
            exact Option.some.inj this
          rw [← this]
          exact Finset.mem_insert_self _ _
        · rw [hread_ne i hic] at hev
          exact Finset.mem_insert_of_mem (inv.slot_uid_mem i ev hev)
      · intro i j ev ev' hij hi hj
        by_cases hic : i = b.cur
        · have hjc : j ≠ b.cur := by
            rw [← hic]
            exact Ne.symm hij
          rw [hic, hread_eq] at hi
          rw [hread_ne j hjc] at hj
          have hee : e = ev := Option.some.inj (Option.some.inj hi)
          have := inv.slot_uid_mem j ev' hj
          rw [← hee]
          intro hc
          rw [hc] at hmem
          exact hmem this
        · by_cases hjc : j = b.cur
          · rw [hjc, hread_eq] at hj
            rw [hread_ne i hic] at hi
            have hee : e = ev' := Option.some.inj (Option.some.inj hj)
            have := inv.slot_uid_mem i ev hi
            rw [← hee]
            intro hc
            rw [← hc] at hmem
            exact hmem this
          · rw [hread_ne i hic] at hi
            rw [hread_ne j hjc] at hj
            exact inv.slot_uid_distinct i j ev ev' hij hi hj
    · -- phase 2: the cursor slot is full, its occupant is evicted
      have hcardn : b.dedup.card = n := by
        rw [inv.card_eq, Nat.min_eq_right hge]
      obtain ⟨old, hslot⟩ := inv.full_some hge b.cur hcurlt
      have hold_mem : old.uid ∈ b.dedup := inv.slot_uid_mem b.cur old hslot
      have hmem_erase : e.uid ∉ b.dedup.erase old.uid := fun hc =>
        hmem (Finset.mem_of_mem_erase hc)
      have hcard' : (insert e.uid (b.dedup.erase old.uid)).card = n := by
        rw [Finset.card_insert_of_not_mem hmem_erase,
          Finset.card_erase_of_mem hold_mem, hcardn]
        omega
      have hseen' : n ≤ (insert e.uid seen).card :=
        le_trans hge (Finset.card_le_card (Finset.subset_insert _ _))
      have hread_eq : (b.slots.set b.cur (some e))[b.cur]? = some (some e) := by
        rw [List.getElem?_set_self', hslot]
        rfl
      have hadd : b.Add e = some
          { slots := b.slots.set b.cur (some e),
            cur := (b.cur + 1) % b.slots.length,
            dedup := insert e.uid (b.dedup.erase old.uid) } := by
        unfold RingEventBuffer.Add
        rw [if_neg hmem, hslot]
      refine ⟨_, hadd, ?_, ?_, ?_, ?_, ?_, ?_, ?_, ?_, ?_, ?_, ?_⟩
      · rw [List.length_set]
        exact hlen
      · show (b.cur + 1) % b.slots.length < n
        rw [hlen]
        exact Nat.mod_lt _ hn
      · show (insert e.uid (b.dedup.erase old.uid)).card
            = min (insert e.uid seen).card n
        rw [hcard', Nat.min_eq_right hseen']
      · show insert e.uid (b.dedup.erase old.uid) ⊆ insert e.uid seen
        exact Finset.insert_subset_insert _
          (le_trans (Finset.erase_subset _ _) inv.dedup_sub)
      · intro h
        exact absurd h (by omega)
      · intro h
        exact absurd h (by omega)
      · intro h
        exact absurd h (by omega)
      · intro h
        exact absurd h (by omega)
      · intro _ i hi
        by_cases hic : i = b.cur
        · exact ⟨e, by rw [hic]; exact hread_eq⟩
        · obtain ⟨ev, hev⟩ := inv.full_some hge i hi
          exact ⟨ev, by rw [hread_ne i hic]; exact hev⟩
      · intro i ev hev
        by_cases hic : i = b.cur
        · rw [hic, hread_eq] at hev
          have : e = ev := Option.some.inj (Option.some.inj hev)
          rw [← this]
          exact Finset.mem_insert_self _ _
        · rw [hread_ne i hic] at hev
          have hmem2 := inv.slot_uid_mem i ev hev
          have hne : ev.uid ≠ old.uid :=
            inv.slot_uid_distinct i b.cur ev old hic hev hslot
          exact Finset.mem_insert_of_mem (Finset.mem_erase.mpr ⟨hne, hmem2⟩)
      · intro i j ev ev' hij hi hj
        by_cases hic : i = b.cur
        · have hjc : j ≠ b.cur := by
            rw [← hic]
            exact Ne.symm hij
          rw [hic, hread_eq] at hi
          rw [hread_ne j hjc] at hj
          have hee : e = ev := Option.some.inj (Option.some.inj hi)
          have := inv.slot_uid_mem j ev' hj
          rw [← hee]
          intro hc
          rw [hc] at hmem
          exact hmem this
        · by_cases hjc : j = b.cur
          · rw [hjc, hread_eq] at hj
            rw [hread_ne i hic] at hi
            have hee : e = ev' := Option.some.inj (Option.some.inj hj)
            have := inv.slot_uid_mem i ev hi
            rw [← hee]
            intro hc
            rw [← hc] at hmem
            exact hmem this
          · rw [hread_ne i hic] at hi
            rw [hread_ne j hjc] at hj
            exact inv.slot_uid_distinct i j ev ev' hij hi hj

/-- Running a whole sequence of `Add` calls preserves the invariant. -/
theorem addAll_inv {n : Nat} (hn : 0 < n) :
    ∀ (es : List Event) (seen : Finset String) (b : RingEventBuffer),
      BufInv n seen b →
      ∃ b', RingEventBuffer.addAll es b = some b' ∧
        BufInv n (es.foldl (fun s ev => insert ev.uid s) seen) b' := by
  intro es
  induction es with
  | nil =>
    intro seen b inv
    exact ⟨b, rfl, inv⟩
  | cons e rest ih =>
    intro seen b inv
    obtain ⟨b1, hadd, inv1⟩ := Add_inv hn inv e
    obtain ⟨b', hrest, inv'⟩ := ih (insert e.uid seen) b1 inv1
    refine ⟨b', ?_, inv'⟩
    unfold RingEventBuffer.addAll
    rw [hadd]
    exact hrest

/-- Folding UID insertion equals union with the UID set. -/
theorem foldl_insert_eq_union :
    ∀ (es : List Event) (s : Finset String),
      es.foldl (fun s ev => insert ev.uid s) s
        = s ∪ (es.map Event.uid).toFinset := by
  intro es
  induction es with
  | nil => intro s; simp
  | cons e rest ih =>
    intro s
    rw [List.foldl_cons, ih, List.map_cons, List.toFinset_cons,
      Finset.union_insert, Finset.insert_union]

/-! ## C5: size counts distinct identities, capped at capacity -/

/-- C5: for every sequence of `Add` calls on a buffer of positive capacity
`n`, the calls all succeed and `Size()` equals the number of distinct UIDs
added, capped at `n`; in particular `Size() ≤ n`. Since the sequence is
arbitrary, the bound holds after every intermediate operation as well. -/
theorem size_distinct_capped (n : Nat) (hn : 0 < n) (es : List Event) :
    ∃ b, RingEventBuffer.addAll es (NewRingEventBuffer n) = some b ∧
      b.Size = min ((es.map Event.uid).toFinset.card) n ∧ b.Size ≤ n := by
  obtain ⟨b, hadd, inv⟩ := addAll_inv hn es ∅ _ (bufInv_new n hn)
  have hsize : b.Size = min ((es.map Event.uid).toFinset.card) n := by
    show b.dedup.card = _
    rw [inv.card_eq, foldl_insert_eq_union, Finset.empty_union]
  exact ⟨b, hadd, hsize, by rw [hsize]; exact Nat.min_le_right _ _⟩

/-- Witness for C5: capacity 2, four adds with three distinct UIDs. -/
theorem size_distinct_capped_witness :
    0 < 2 ∧
    ∃ b, RingEventBuffer.addAll
        [sampleEvent "1", sampleEvent "2", sampleEvent "2", sampleEvent "3"]
        (NewRingEventBuffer 2) = some b ∧
      b.Size = min (([sampleEvent "1", sampleEvent "2", sampleEvent "2",
        sampleEvent "3"].map Event.uid).toFinset.card) 2 ∧
      b.Size ≤ 2 :=
  ⟨by decide,
   size_distinct_capped 2 (by decide)
     [sampleEvent "1", sampleEvent "2", sampleEvent "2", sampleEvent "3"]⟩

theorem addAll_append (xs ys : List Event) :
    ∀ b : RingEventBuffer, RingEventBuffer.addAll (xs ++ ys) b
      = (RingEventBuffer.addAll xs b).bind (RingEventBuffer.addAll ys) := by
  induction xs with
  | nil =>
    intro b
    rfl
  | cons e rest ih =>
    intro b
    have h1 : RingEventBuffer.addAll ((e :: rest) ++ ys) b
        = match b.Add e with
          | none => none
          | some b' => RingEventBuffer.addAll (rest ++ ys) b' := rfl
    have h2 : RingEventBuffer.addAll (e :: rest) b
        = match b.Add e with
          | none => none
          | some b' => RingEventBuffer.addAll rest b' := rfl
    rw [h1, h2]
    cases b.Add e with
    | none => rfl
    | some b' =>
      dsimp only
      exact ih b'

theorem addAll_singleton (e : Event) (b : RingEventBuffer) :
    RingEventBuffer.addAll [e] b = b.Add e := by
  unfold RingEventBuffer.addAll
  cases hadd : b.Add e <;> rfl

/-- Adding at most `n` distinct-UID events to a fresh buffer of capacity
`n > 0` fills the slots in order: the exact resulting state. -/
theorem addAll_fresh_exact {n : Nat} (_hn : 0 < n) :
    ∀ es : List Event, es.length ≤ n → (es.map Event.uid).Nodup →
      RingEventBuffer.addAll es (NewRingEventBuffer n)
        = some { slots := es.map some ++ List.replicate (n - es.length) none,
                 cur := es.length % n,
                 dedup := (es.map Event.uid).toFinset } := by
  intro es
  induction es using List.reverseRecOn with
  | nil =>
    intro _ _
    show some (NewRingEventBuffer n) = _
    simp [NewRingEventBuffer, Nat.zero_mod]
  | append_singleton xs e ih =>
    intro hlen hnd
    have hk : xs.length < n := by
      rw [List.length_append, List.length_singleton] at hlen
      omega
    rw [List.map_append] at hnd
    rw [List.nodup_append] at hnd
    obtain ⟨hnd1, _, hdisj⟩ := hnd
    have hnotmem : e.uid ∉ xs.map Event.uid := by
      intro hc
      exact hdisj hc (by simp)
    rw [addAll_append, ih (le_of_lt hk) hnd1, Option.some_bind, addAll_singleton]
    have hlens : (xs.map some ++ List.replicate (n - xs.length)
        (none : Option Event)).length = n := by
      rw [List.length_append, List.length_map, List.length_replicate]
      omega
    have hcur : xs.length % n = xs.length := Nat.mod_eq_of_lt hk
    have hnotfin : e.uid ∉ (xs.map Event.uid).toFinset := by
      rw [List.mem_toFinset]
      exact hnotmem
    have hslotk : (xs.map some ++ List.replicate (n - xs.length)
        (none : Option Event))[xs.length]? = some none := by
      rw [List.getElem?_append_right (by rw [List.length_map])]
      rw [List.length_map, Nat.sub_self, List.getElem?_replicate,
        if_pos (by omega)]
    have hrep : List.replicate (n - xs.length) (none : Option Event)
        = none :: List.replicate (n - (xs.length + 1)) none := by
      have h1 : n - xs.length = (n - (xs.length + 1)) + 1 := by omega
      rw [h1, List.replicate_succ]
    unfold RingEventBuffer.Add
    rw [if_neg (by simpa [hcur] using hnotfin)]
    dsimp only
    rw [hcur, hslotk]
    refine congrArg some ?_
    simp only [RingEventBuffer.mk.injEq]
    refine ⟨?_, ?_, ?_⟩
    · rw [hrep, List.set_append, if_neg (by rw [List.length_map]; omega)]
      rw [List.length_map, Nat.sub_self]
      show xs.map some ++ some e :: List.replicate (n - (xs.length + 1)) none
        = (xs ++ [e]).map some ++ _
      rw [List.map_append, List.append_assoc, List.length_append,
        List.length_singleton]
      rfl
    · rw [hlens, List.length_append, List.length_singleton]
    · rw [List.map_append, List.toFinset_append]
      ext x
      simp [or_comm]

/-- An event visited by `Do` occupies some slot of the ring. -/
theorem mem_visitList {b : RingEventBuffer} {x : Event}
    (h : x ∈ b.visitList) : some x ∈ b.slots := by
  unfold RingEventBuffer.visitList at h
  rw [List.mem_filterMap] at h
  obtain ⟨a, ha, hax⟩ := h
  have hax' : a = some x := hax
  rw [hax'] at ha
  rcases List.mem_append.1 ha with h1 | h1
  · exact List.mem_of_mem_drop h1
  · exact List.mem_of_mem_take h1

/-! ## C6: overflow evicts the earliest-added identity -/

/-- C6: adding `capacity + 1` events with pairwise-distinct identities to a
fresh buffer of positive capacity leaves `Size()` equal to the capacity and
the earliest-added identity absent from the events `Do` visits. -/
theorem overflow_evicts_oldest (n : Nat) (hn : 0 < n) (e₀ : Event)
    (rest : List Event) (hlen : (e₀ :: rest).length = n + 1)
    (hnd : ((e₀ :: rest).map Event.uid).Nodup) :
    ∃ b, RingEventBuffer.addAll (e₀ :: rest) (NewRingEventBuffer n) = some b ∧
      b.Size = n ∧ e₀.uid ∉ b.visitList.map Event.uid := by
  have hrest_len : rest.length = n := by
    rw [List.length_cons] at hlen
    omega
  obtain ⟨mid, eL, rfl⟩ : ∃ mid eL, rest = mid ++ [eL] := by
    rcases List.eq_nil_or_concat rest with h | ⟨L, x, h⟩
    · rw [h] at hrest_len
      rw [List.length_nil] at hrest_len
      omega
    · exact ⟨L, x, by rw [h, List.concat_eq_append]⟩
  have hmid_len : mid.length = n - 1 := by
    rw [List.length_append, List.length_singleton] at hrest_len
    omega
  have hfront_len : (e₀ :: mid).length = n := by
    rw [List.length_cons, hmid_len]
    omega
  -- distinctness facts
  rw [List.map_cons, List.map_append] at hnd
  rw [List.nodup_cons] at hnd
  obtain ⟨h0, htail⟩ := hnd
  have he0_notmid : e₀.uid ∉ mid.map Event.uid := fun hc =>
    h0 (List.mem_append_left _ hc)
  have hne0L : e₀.uid ≠ eL.uid := fun heq =>
    h0 (List.mem_append_right _ (by rw [heq]; simp))
  rw [List.nodup_append] at htail
  obtain ⟨hmidnd, _, hdisj⟩ := htail
  have heL_notmid : eL.uid ∉ mid.map Event.uid := fun hc =>
    hdisj hc (by simp)
  have hfront_nd : ((e₀ :: mid).map Event.uid).Nodup := by
    rw [List.map_cons, List.nodup_cons]
    exact ⟨he0_notmid, hmidnd⟩
  -- the state after the first `capacity` adds
  have hfront := addAll_fresh_exact hn (e₀ :: mid) (le_of_eq hfront_len)
    hfront_nd
  have hB : RingEventBuffer.mk
        ((e₀ :: mid).map some ++ List.replicate (n - (e₀ :: mid).length) none)
        ((e₀ :: mid).length % n) (((e₀ :: mid).map Event.uid).toFinset)
      = RingEventBuffer.mk (some e₀ :: mid.map some) 0
          (((e₀ :: mid).map Event.uid).toFinset) := by
    simp only [RingEventBuffer.mk.injEq]
    refine ⟨?_, ?_, trivial⟩
    · rw [hfront_len, Nat.sub_self, List.replicate_zero, List.append_nil]
      rfl
    · rw [hfront_len, Nat.mod_self]
  have heL_notS : eL.uid ∉ ((e₀ :: mid).map Event.uid).toFinset := by
    rw [List.mem_toFinset, List.map_cons, List.mem_cons]
    rintro (h | h)
    · exact hne0L h.symm
    · exact heL_notmid h
  have he0_mem : e₀.uid ∈ ((e₀ :: mid).map Event.uid).toFinset := by
    rw [List.mem_toFinset, List.map_cons]
    exact List.mem_cons_self _ _
  have hAdd : (RingEventBuffer.mk (some e₀ :: mid.map some) 0
        (((e₀ :: mid).map Event.uid).toFinset)).Add eL
      = some (RingEventBuffer.mk (some eL :: mid.map some)
          (1 % (mid.length + 1))
          (insert eL.uid
            ((((e₀ :: mid).map Event.uid).toFinset).erase e₀.uid))) := by
    unfold RingEventBuffer.Add
    rw [if_neg heL_notS]
    simp only [List.getElem?_cons_zero]
    simp [List.length_cons, List.length_map]
  have hcomp : RingEventBuffer.addAll (e₀ :: (mid ++ [eL]))
      (NewRingEventBuffer n)
      = some (RingEventBuffer.mk (some eL :: mid.map some)
          (1 % (mid.length + 1))
          (insert eL.uid
            ((((e₀ :: mid).map Event.uid).toFinset).erase e₀.uid))) := by
    rw [show e₀ :: (mid ++ [eL]) = (e₀ :: mid) ++ [eL] from rfl]
    rw [addAll_append, hfront, Option.some_bind, addAll_singleton, hB, hAdd]
  have hS_card : (((e₀ :: mid).map Event.uid).toFinset).card = n := by
    rw [List.toFinset_card_of_nodup hfront_nd, List.length_map, hfront_len]
  have hsize : (insert eL.uid
      ((((e₀ :: mid).map Event.uid).toFinset).erase e₀.uid)).card = n := by
    rw [Finset.card_insert_of_not_mem
        (fun hc => heL_notS (Finset.mem_of_mem_erase hc)),
      Finset.card_erase_of_mem he0_mem, hS_card]
    omega
  refine ⟨_, hcomp, hsize, ?_⟩
  intro hc
  rw [List.mem_map] at hc
  obtain ⟨x, hx_mem, hx_uid⟩ := hc
  have hx_slot := mem_visitList hx_mem
  rcases List.mem_cons.1 hx_slot with h | h
  · have : eL = x := Option.some.inj h.symm
    rw [← this] at hx_uid
    exact hne0L hx_uid.symm
  · rw [List.mem_map] at h
    obtain ⟨m, hm, hmx⟩ := h
    have : m = x := Option.some.inj hmx
    rw [this] at hm
    apply he0_notmid
    rw [← hx_uid]
    exact List.mem_map_of_mem Event.uid hm

/-- Witness for C6: the specification's own scenario — capacity 2, UIDs
"1", "2", "3" in order: size ends at 2, UID "1" is gone, and the traversal
is exactly ["2", "3"]. -/
theorem overflow_evicts_oldest_witness :
    0 < 2 ∧
    (([sampleEvent "1", sampleEvent "2", sampleEvent "3"].map Event.uid).Nodup) ∧
    (∃ b, RingEventBuffer.addAll
        (sampleEvent "1" :: [sampleEvent "2", sampleEvent "3"])
        (NewRingEventBuffer 2) = some b ∧
      b.Size = 2 ∧ (sampleEvent "1").uid ∉ b.visitList.map Event.uid) ∧
    (RingEventBuffer.addAll
        [sampleEvent "1", sampleEvent "2", sampleEvent "3"]
        (NewRingEventBuffer 2)).map
      (fun b => b.visitList.map Event.uid) = some ["2", "3"] :=
  ⟨by decide, by decide,
   overflow_evicts_oldest 2 (by decide) (sampleEvent "1")
     [sampleEvent "2", sampleEvent "3"] rfl (by decide),
   by decide⟩
